import Mathlib

/-!
Verification of the json2relcsv schema-inference engine and CSV materializer.

Shallow embedding of the C sources:
  * `src/ast.h`      — the JSON value tree (`Value_Node` / `AST_Node`) and the
                       relational structures `TableSchema` / `Schema`;
  * `src/schema.c`   — schema inference (`generate_schema`,
                       `process_object_node`, `process_array_node`,
                       `find_or_create_table`, `add_object_to_table`,
                       `get_table_name_for_array`);
  * `src/csv_generator.c` — materialization (`write_csv_files`,
                       `write_table_csv`, `value_to_csv_string`,
                       `escape_csv_string`).

The C global `global_next_node_id` is threaded explicitly through an
`InferState`.  C `int` identifiers are modelled as `Nat` (they are only ever
set from the counter starting at 1 and incremented).  C doubles are modelled
as `Int` rendered with `toString`, which coincides with C's `%g` on the small
integral values used in the concrete examples here; no theorem below depends
on numeric formatting.
-/

namespace JsonToRelCsv

/-- JSON value tree, merging `Value_Node`/`AST_Node` of `ast.h`.
An object is its ordered pair list (`Pair_Node` chain, parse order, cf.
`add_pair_to_object` which appends); an array is its element list. -/
inductive JValue where
  | jstr  : String → JValue
  | jnum  : Int → JValue
  | jbool : Bool → JValue
  | jnull : JValue
  | jobj  : List (String × JValue) → JValue
  | jarr  : List JValue → JValue

/-- An `Object_Node` as registered into a table: its assigned `node_id`
together with its pair list (`schema.c`: `add_object_to_table` sets
`obj->node_id` and links the object into the table's list). -/
structure ObjRow where
  node_id : Nat
  pairs : List (String × JValue)

/-- `TableSchema` of `ast.h`: name, ordered column names, and the linked list
of member objects (head = most recently added). `column_count` is
`columns.length`. -/
structure TableSchema where
  name : String
  columns : List String
  objects : List ObjRow

/-- The mutable inference state: the `TableCollection` being built (in
creation order, `add_table` appends) and the C global `global_next_node_id`. -/
structure InferState where
  tables : List TableSchema
  next_id : Nat

/-- `get_table_name_for_array` of `schema.c`: the child-table name for a
nested object/array reached at `key`; the parent `NULL` pointer is `none`. -/
def get_table_name_for_array (parent : Option String) (key : String) : String :=
  match parent with
  | none => key
  | some p => if p = "root" then key else p ++ "_" ++ key

/-- The `has_parent_fk` test inside `find_or_create_table`:
`current_parent_table_name_for_fk != NULL && strcmp(..., "root") != 0`. -/
def has_parent_fk : Option String → Bool
  | none => false
  | some p => !(p == "root")

/-- Column layout built by `find_or_create_table` on a miss:
`"id"`, then `"<parent>_id"` when `has_parent_fk`, then the object's keys in
first-observed order. -/
def new_table_columns (keys : List String) (pfk : Option String) : List String :=
  "id" :: ((if has_parent_fk pfk then [pfk.getD "" ++ "_id"] else []) ++ keys)

/-- The name-scan loop of `find_or_create_table`: index of the first table
whose `name` matches, if any. -/
def find_table_idx : List TableSchema → String → Option Nat
  | [], _ => none
  | t :: rest, name =>
      if t.name = name then some 0
      else (find_table_idx rest name).map (· + 1)

/-- `find_or_create_table` of `schema.c`: return the index of the matching
table (hit) or append a fresh table with the layout of `new_table_columns`
and no objects (miss). -/
def find_or_create_table (st : InferState) (name : String) (keys : List String)
    (pfk : Option String) : Nat × InferState :=
  match find_table_idx st.tables name with
  | some i => (i, st)
  | none =>
      (st.tables.length,
        { st with tables :=
            st.tables ++ [⟨name, new_table_columns keys pfk, []⟩] })

/-- In-place update of the table at index `i` (the C code mutates through the
pointer returned by `find_or_create_table`). -/
def modifyAt : List TableSchema → Nat → (TableSchema → TableSchema) → List TableSchema
  | [], _, _ => []
  | t :: rest, 0, f => f t :: rest
  | t :: rest, n + 1, f => t :: modifyAt rest n f

/-- `add_object_to_table` of `schema.c`: assign
`obj->node_id = global_next_node_id++` and prepend the object to the table's
list. -/
def add_object_to_table (st : InferState) (idx : Nat)
    (pairs : List (String × JValue)) : InferState :=
  { tables := modifyAt st.tables idx
      (fun t => { t with objects := ⟨st.next_id, pairs⟩ :: t.objects }),
    next_id := st.next_id + 1 }

/-- The scalar-array branch of `process_array_node`: append a junction table
`⟨name, [<owner>_id, item_index, value], no objects⟩` (no lookup is made). -/
def add_junction_table (st : InferState) (name : String) (ownerTable : String) :
    InferState :=
  { st with tables :=
      st.tables ++ [⟨name, [ownerTable ++ "_id", "item_index", "value"], []⟩] }

mutual

/-- `process_object_node` of `schema.c`: collect the keys, resolve the table,
register the object (assigning its id), then walk the pairs. The unused
`parent_id_value` argument of the C function is kept as `_pid`. -/
def process_object_node (pairs : List (String × JValue)) (tname : String)
    (_pid : Nat) (pfk : Option String) (st : InferState) : InferState :=
  let keys := pairs.map Prod.fst
  let r := find_or_create_table st tname keys pfk
  let myId := r.2.next_id
  let st2 := add_object_to_table r.2 r.1 pairs
  process_pairs pairs tname myId st2
termination_by (sizeOf pairs, 1)

/-- The pair-walking loop of `process_object_node`: nested objects recurse
with child name `get_table_name_for_array table->name key` and parent FK
`table->name`; arrays go to `process_array_node`; scalars are skipped. -/
def process_pairs (ps : List (String × JValue)) (tname : String) (myId : Nat)
    (st : InferState) : InferState :=
  match ps with
  | [] => st
  | (k, JValue.jobj inner) :: rest =>
      process_pairs rest tname myId
        (process_object_node inner (get_table_name_for_array (some tname) k)
          myId (some tname) st)
  | (k, JValue.jarr elems) :: rest =>
      process_pairs rest tname myId (process_array_node elems tname k myId st)
  | (_, JValue.jstr _) :: rest => process_pairs rest tname myId st
  | (_, JValue.jnum _) :: rest => process_pairs rest tname myId st
  | (_, JValue.jbool _) :: rest => process_pairs rest tname myId st
  | (_, JValue.jnull) :: rest => process_pairs rest tname myId st
termination_by (sizeOf ps, 0)

/-- `process_array_node` of `schema.c`: empty arrays do nothing; if the first
element is an object, every object element is processed into the table named
`get_table_name_for_array owner key` (others are skipped with a diagnostic);
otherwise exactly one junction table is appended. -/
def process_array_node (elems : List JValue) (owner : String) (key : String)
    (ownerId : Nat) (st : InferState) : InferState :=
  match elems with
  | [] => st
  | JValue.jobj o :: rest =>
      process_array_objects (JValue.jobj o :: rest)
        (get_table_name_for_array (some owner) key) owner ownerId st
  | JValue.jstr _ :: _ =>
      add_junction_table st (get_table_name_for_array (some owner) key) owner
  | JValue.jnum _ :: _ =>
      add_junction_table st (get_table_name_for_array (some owner) key) owner
  | JValue.jbool _ :: _ =>
      add_junction_table st (get_table_name_for_array (some owner) key) owner
  | JValue.jnull :: _ =>
      add_junction_table st (get_table_name_for_array (some owner) key) owner
  | JValue.jarr _ :: _ =>
      add_junction_table st (get_table_name_for_array (some owner) key) owner
termination_by (sizeOf elems, 1)

/-- The element loop of the object-array branch of `process_array_node`. -/
def process_array_objects (elems : List JValue) (tname : String)
    (powner : String) (ownerId : Nat) (st : InferState) : InferState :=
  match elems with
  | [] => st
  | JValue.jobj pairs :: rest =>
      process_array_objects rest tname powner ownerId
        (process_object_node pairs tname ownerId (some powner) st)
  | _ :: rest => process_array_objects rest tname powner ownerId st
termination_by (sizeOf elems, 0)

end

/-- `generate_schema` of `schema.c`, with the C global counter made explicit:
the incoming counter value `counter0` is discarded because the function
resets `global_next_node_id = 1` at the start of every run. Returns the
table list and the final counter value, or `none` for the
`RootShapeError` path (`exit(EXIT_FAILURE)` before any table is created). -/
def generate_schema_run (counter0 : Nat) (root : JValue) :
    Option (List TableSchema × Nat) :=
  let _ := counter0
  let st0 : InferState := { tables := [], next_id := 1 }
  match root with
  | JValue.jobj pairs =>
      let st := process_object_node pairs "root" 0 none st0
      some (st.tables, st.next_id)
  | JValue.jarr elems =>
      let st := process_array_node elems "root" "items" 0 st0
      some (st.tables, st.next_id)
  | _ => none

/-- `generate_schema` as called from `main.c` (a fresh process run). -/
def generate_schema (root : JValue) : Option (List TableSchema) :=
  (generate_schema_run 1 root).map Prod.fst

/-! ## Materializer (`src/csv_generator.c`)

`write_scalar_arrays` exists in the source but is never called by
`write_csv_files`, so it is not part of the pipeline modelled here. -/

/-- `escape_csv_string`: wrap in double quotes, doubling every embedded
double quote. -/
def escape_csv_string (s : String) : String :=
  "\"" ++ String.join (s.toList.map
    (fun c => if c = '"' then "\"\"" else String.singleton c)) ++ "\""

/-- `value_to_csv_string`: strings escaped, numbers via `%g` (modelled on
integral values by decimal `toString`), booleans literal, null and nested
containers empty. -/
def value_to_csv_string : JValue → String
  | JValue.jstr s => escape_csv_string s
  | JValue.jnum n => toString n
  | JValue.jbool b => if b then "true" else "false"
  | JValue.jnull => ""
  | JValue.jobj _ => ""
  | JValue.jarr _ => ""

/-- The pair-scan in `write_table_csv`'s regular-column case: the first pair
whose key equals the column name. -/
def lookup_value : List (String × JValue) → String → Option JValue
  | [], _ => none
  | (k, v) :: rest, col => if k = col then some v else lookup_value rest col

/-- The header loop of `write_table_csv`: columns comma-separated, newline
after the last. -/
def header_row : List String → String
  | [] => ""
  | [c] => c ++ "\n"
  | c :: c2 :: rest => c ++ "," ++ header_row (c2 :: rest)

/-- The junction-table detection in `write_table_csv`:
`column_count == 3 && columns[1] == "index" && columns[2] == "value"`.
(Note: actual junction tables are built with `"item_index"`, not
`"index"`.) -/
def is_junction_shape (cols : List String) : Bool :=
  match cols with
  | [_, c1, c2] => c1 == "index" && c2 == "value"
  | _ => false

/-- The child-table detection in `write_table_csv`:
`column_count >= 2 && strstr(columns[1], "_id") == columns[1]`, i.e. the
second column literally starts with the three characters `_id` (stated on
the character list so it evaluates by the kernel). -/
def is_child_table_shape (cols : List String) : Bool :=
  match cols with
  | _ :: c1 :: _ => ("_id".toList).isPrefixOf c1.toList
  | _ => false

/-- The per-row column loop of `write_table_csv` for columns `1..count-1`
(`i` is the column index, `seqv` the running `seq` counter): the cells after
the id, in order, together with the updated `seq` counter. -/
def row_cells (cols : List String) (i : Nat) (obj : ObjRow)
    (is_child : Bool) (seqv : Nat) : List String × Nat :=
  match cols with
  | [] => ([], seqv)
  | c :: rest =>
      if i = 1 ∧ is_child = true then
        let r := row_cells rest (i + 1) obj is_child seqv
        (toString obj.node_id :: r.1, r.2)
      else if i = 2 ∧ is_child = true ∧ c = "seq" then
        let r := row_cells rest (i + 1) obj is_child (seqv + 1)
        (toString seqv :: r.1, r.2)
      else
        let cell := match lookup_value obj.pairs c with
          | some v => value_to_csv_string v
          | none => ""
        let r := row_cells rest (i + 1) obj is_child seqv
        (cell :: r.1, r.2)

/-- The object loop of `write_table_csv`: one line per object in stored list
order, each line `id` then the cells of `row_cells`, comma-separated. -/
def write_rows (objs : List ObjRow) (cols : List String) (is_child : Bool)
    (seqv : Nat) : String :=
  match objs with
  | [] => ""
  | obj :: rest =>
      let r := row_cells (cols.drop 1) 1 obj is_child seqv
      toString obj.node_id
        ++ String.join (r.1.map (fun cell => "," ++ cell))
        ++ "\n"
        ++ write_rows rest cols is_child r.2

/-- `write_table_csv` of `csv_generator.c`: the text written to
`<table.name>.csv` — the header, then (unless the `"index"`-shape junction
special case returns early) one row per stored object. -/
def write_table_csv (t : TableSchema) : String :=
  let hdr := header_row t.columns
  if is_junction_shape t.columns then hdr
  else hdr ++ write_rows t.objects t.columns (is_child_table_shape t.columns) 0

/-- `write_csv_files` of `csv_generator.c`: the `(file name, file content)`
pairs written, in table order. -/
def write_csv_files (ts : List TableSchema) : List (String × String) :=
  ts.map (fun t => (t.name ++ ".csv", write_table_csv t))

/-- One full run of the program core (`main.c`: `generate_schema` then
`write_csv_files`), with the identifier counter made explicit; `none` when
the run aborts with `RootShapeError` before writing anything. -/
def pipeline_run (counter0 : Nat) (root : JValue) :
    Option (List (String × String) × Nat) :=
  (generate_schema_run counter0 root).map
    (fun p => (write_csv_files p.1, p.2))

/-- The files produced by one fresh process run. -/
def pipeline (root : JValue) : Option (List (String × String)) :=
  (pipeline_run 1 root).map Prod.fst

/-! ## Invariant machinery for the inference traversal -/

/-- The `node_id`s stored in one table, in stored (head-first) order. -/
def tableIds (t : TableSchema) : List Nat := t.objects.map ObjRow.node_id

/-- All `node_id`s in the registry, table by table. -/
def allIds (ts : List TableSchema) : List Nat := (ts.map tableIds).flatten

/-- Invariant of an inference state: each table's stored id list is strictly
decreasing (new rows are prepended), and every stored id is below the
counter. -/
def SchemaInv (st : InferState) : Prop :=
  ∀ t ∈ st.tables, List.Chain' (fun a b => b < a) (tableIds t) ∧
    ∀ i ∈ tableIds t, i < st.next_id

/-- How one traversal step may evolve the state: the counter only grows,
tables are never removed, existing tables keep their name and columns, the
ids gained are exactly the counter values consumed, and `SchemaInv` is
preserved. -/
def StepOk (st st' : InferState) : Prop :=
  st.next_id ≤ st'.next_id ∧
  st.tables.length ≤ st'.tables.length ∧
  (∀ i, i < st.tables.length →
    (st'.tables.get? i).map (fun t => (t.name, t.columns)) =
      (st.tables.get? i).map (fun t => (t.name, t.columns))) ∧
  (allIds st'.tables).Perm
    (List.range' st.next_id (st'.next_id - st.next_id) ++ allIds st.tables) ∧
  (SchemaInv st → SchemaInv st')

theorem StepOk_refl (st : InferState) : StepOk st st := by
  refine ⟨le_refl _, le_refl _, fun i _ => rfl, ?_, fun h => h⟩
  simp

theorem StepOk_trans {s1 s2 s3 : InferState} (h12 : StepOk s1 s2)
    (h23 : StepOk s2 s3) : StepOk s1 s3 := by
  obtain ⟨n12, l12, g12, p12, i12⟩ := h12
  obtain ⟨n23, l23, g23, p23, i23⟩ := h23
  refine ⟨le_trans n12 n23, le_trans l12 l23, ?_, ?_, fun h => i23 (i12 h)⟩
  · intro i hi
    exact (g23 i (lt_of_lt_of_le hi l12)).trans (g12 i hi)
  · have h1 : s1.next_id + (s2.next_id - s1.next_id) = s2.next_id := by omega
    have h2 : (s3.next_id - s2.next_id) + (s2.next_id - s1.next_id) =
        s3.next_id - s1.next_id := by omega
    have hjoin : List.range' s1.next_id (s2.next_id - s1.next_id) ++
        List.range' s2.next_id (s3.next_id - s2.next_id) =
        List.range' s1.next_id (s3.next_id - s1.next_id) := by
      rw [← h2, ← List.range'_append_1, h1]
    refine p23.trans ?_
    refine (List.Perm.append_left _ p12).trans ?_
    rw [← List.append_assoc, ← hjoin]
    exact List.Perm.append_right _ List.perm_append_comm

theorem one_le_sizeOf_list {α : Type} [SizeOf α] (l : List α) : 1 ≤ sizeOf l := by
  cases l <;> simp_arith

theorem find_table_idx_eq_none_iff (ts : List TableSchema) (name : String) :
    find_table_idx ts name = none ↔ ∀ t ∈ ts, t.name ≠ name := by
  induction ts with
  | nil => simp [find_table_idx]
  | cons t rest ih =>
      by_cases h : t.name = name <;>
        simp [find_table_idx, h, Option.map_eq_none', ih]

theorem find_table_idx_lt {ts : List TableSchema} {name : String} {i : Nat}
    (h : find_table_idx ts name = some i) : i < ts.length := by
  induction ts generalizing i with
  | nil => simp [find_table_idx] at h
  | cons t rest ih =>
      by_cases ht : t.name = name
      · simp [find_table_idx, ht] at h
        simp only [List.length_cons]
        omega
      · simp [find_table_idx, ht, Option.map_eq_some'] at h
        obtain ⟨j, hj, rfl⟩ := h
        have := ih hj
        simp only [List.length_cons]
        omega

theorem length_modifyAt (ts : List TableSchema) (i : Nat)
    (f : TableSchema → TableSchema) : (modifyAt ts i f).length = ts.length := by
  induction ts generalizing i with
  | nil => rfl
  | cons t rest ih =>
      cases i with
      | zero => rfl
      | succ n => simp [modifyAt, ih]

theorem get?_modifyAt (ts : List TableSchema) (i j : Nat)
    (f : TableSchema → TableSchema) :
    (modifyAt ts i f).get? j =
      if j = i then (ts.get? j).map f else ts.get? j := by
  induction ts generalizing i j with
  | nil => simp [modifyAt]
  | cons t rest ih =>
      cases i with
      | zero =>
          cases j with
          | zero => simp [modifyAt]
          | succ m => simp [modifyAt]
      | succ n =>
          cases j with
          | zero => simp [modifyAt]
          | succ m => simpa [modifyAt, Nat.succ_eq_add_one] using ih n m

theorem mem_modifyAt {ts : List TableSchema} {i : Nat}
    {f : TableSchema → TableSchema} {t : TableSchema}
    (h : t ∈ modifyAt ts i f) :
    t ∈ ts ∨ ∃ u, u ∈ ts ∧ t = f u := by
  induction ts generalizing i with
  | nil => simp [modifyAt] at h
  | cons hd rest ih =>
      cases i with
      | zero =>
          simp only [modifyAt, List.mem_cons] at h
          rcases h with h | h
          · exact Or.inr ⟨hd, List.mem_cons_self _ _, h⟩
          · exact Or.inl (List.mem_cons_of_mem _ h)
      | succ n =>
          simp only [modifyAt, List.mem_cons] at h
          rcases h with h | h
          · subst h
            exact Or.inl (List.mem_cons_self _ _)
          · rcases ih h with h' | ⟨u, hu, ht⟩
            · exact Or.inl (List.mem_cons_of_mem _ h')
            · exact Or.inr ⟨u, List.mem_cons_of_mem _ hu, ht⟩

theorem allIds_append (ts us : List TableSchema) :
    allIds (ts ++ us) = allIds ts ++ allIds us := by
  simp [allIds]

theorem allIds_modifyAt_prepend (ts : List TableSchema) (i : Nat) (row : ObjRow)
    (h : i < ts.length) :
    (allIds (modifyAt ts i
      (fun t => { t with objects := row :: t.objects }))).Perm
      (row.node_id :: allIds ts) := by
  induction ts generalizing i with
  | nil => simp at h
  | cons t rest ih =>
      cases i with
      | zero =>
          simp [modifyAt, allIds, tableIds]
      | succ n =>
          have hn : n < rest.length := by simpa using h
          have := ih n hn
          simp only [modifyAt, allIds, List.map_cons, List.flatten_cons]
          exact (this.append_left (tableIds t)).trans List.perm_middle

theorem append_empty_ok (st : InferState) (t : TableSchema)
    (h : t.objects = []) :
    StepOk st { st with tables := st.tables ++ [t] } := by
  refine ⟨le_refl _, ?_, ?_, ?_, ?_⟩
  · simp
  · intro i hi
    simp [List.getElem?_append_left hi]
  · simp [allIds_append, allIds, tableIds, h]
  · intro hInv t' ht'
    rcases List.mem_append.mp ht' with hmem | hmem
    · exact hInv t' hmem
    · have : t' = t := by simpa using hmem
      subst this
      simp [tableIds, h]

theorem add_ok (st : InferState) (idx : Nat)
    (pairs : List (String × JValue)) (hidx : idx < st.tables.length) :
    StepOk st (add_object_to_table st idx pairs) := by
  refine ⟨Nat.le_succ _, ?_, ?_, ?_, ?_⟩
  · simp [add_object_to_table, length_modifyAt]
  · intro i hi
    simp only [add_object_to_table, get?_modifyAt]
    by_cases h : i = idx
    · subst h
      rcases List.get?_eq_some.mpr ⟨hidx, rfl⟩ with _
      cases hg : st.tables.get? i <;> simp [hg]
    · simp [h]
  · have hperm := allIds_modifyAt_prepend st.tables idx ⟨st.next_id, pairs⟩ hidx
    have : st.next_id + 1 - st.next_id = 1 := by omega
    simpa [add_object_to_table, this] using hperm
  · intro hInv t' ht'
    simp only [add_object_to_table] at ht'
    rcases mem_modifyAt ht' with hmem | ⟨u, hu, rfl⟩
    · obtain ⟨hc, hb⟩ := hInv t' hmem
      exact ⟨hc, fun i hi => Nat.lt_succ_of_lt (hb i hi)⟩
    · obtain ⟨hc, hb⟩ := hInv u hu
      constructor
      · refine List.chain'_cons'.mpr ⟨?_, hc⟩
        intro b hb'
        exact hb b (List.mem_of_mem_head? hb')
      · intro i hi
        simp only [tableIds, List.map_cons, List.mem_cons] at hi
        rcases hi with rfl | hi
        · exact Nat.lt_succ_self _
        · exact Nat.lt_succ_of_lt (hb i hi)

theorem route_ok (st : InferState) (tname : String) (keys : List String)
    (pfk : Option String) (pairs : List (String × JValue)) :
    StepOk st (add_object_to_table (find_or_create_table st tname keys pfk).2
      (find_or_create_table st tname keys pfk).1 pairs) := by
  rcases hfind : find_table_idx st.tables tname with _ | i
  · have hstep : find_or_create_table st tname keys pfk =
        (st.tables.length,
          { st with tables :=
              st.tables ++ [⟨tname, new_table_columns keys pfk, []⟩] }) := by
      simp [find_or_create_table, hfind]
    rw [hstep]
    refine StepOk_trans
      (append_empty_ok st ⟨tname, new_table_columns keys pfk, []⟩ rfl) ?_
    refine add_ok _ _ _ ?_
    simp
  · have hstep : find_or_create_table st tname keys pfk = (i, st) := by
      simp [find_or_create_table, hfind]
    rw [hstep]
    exact add_ok _ _ _ (find_table_idx_lt hfind)

theorem add_junction_ok (st : InferState) (name ownerTable : String) :
    StepOk st (add_junction_table st name ownerTable) :=
  append_empty_ok st _ rfl

/-- Every traversal step of the inference engine satisfies `StepOk`,
by strong induction on the size of the traversed subtree. -/
theorem processing_ok (N : Nat) :
    (∀ ps tname myId st, sizeOf ps ≤ N →
        StepOk st (process_pairs ps tname myId st)) ∧
    (∀ elems tname powner oid st, sizeOf elems ≤ N →
        StepOk st (process_array_objects elems tname powner oid st)) ∧
    (∀ pairs tname pid pfk st, sizeOf pairs ≤ N →
        StepOk st (process_object_node pairs tname pid pfk st)) ∧
    (∀ elems owner key oid st, sizeOf elems ≤ N →
        StepOk st (process_array_node elems owner key oid st)) := by
  induction N with
  | zero =>
      refine ⟨?_, ?_, ?_, ?_⟩
      · intro ps _ _ _ h
        exact absurd h (by have := one_le_sizeOf_list ps; omega)
      · intro elems _ _ _ _ h
        exact absurd h (by have := one_le_sizeOf_list elems; omega)
      · intro pairs _ _ _ _ h
        exact absurd h (by have := one_le_sizeOf_list pairs; omega)
      · intro elems _ _ _ _ h
        exact absurd h (by have := one_le_sizeOf_list elems; omega)
  | succ n ih =>
      obtain ⟨ihP, ihAO, ihO, ihA⟩ := ih
      have hP : ∀ ps tname myId st, sizeOf ps ≤ n + 1 →
          StepOk st (process_pairs ps tname myId st) := by
        intro ps tname myId st hs
        cases ps with
        | nil =>
            simp only [process_pairs]
            exact StepOk_refl st
        | cons hd rest =>
            obtain ⟨k, v⟩ := hd
            have hrest : sizeOf rest ≤ n := by
              simp at hs
              have := one_le_sizeOf_list rest
              omega
            cases v with
            | jobj inner =>
                have hinner : sizeOf inner ≤ n := by
                  simp at hs
                  omega
                simp only [process_pairs]
                exact StepOk_trans (ihO inner _ _ _ _ hinner)
                  (ihP rest _ _ _ hrest)
            | jarr elems =>
                have helems : sizeOf elems ≤ n := by
                  simp at hs
                  omega
                simp only [process_pairs]
                exact StepOk_trans (ihA elems _ _ _ _ helems)
                  (ihP rest _ _ _ hrest)
            | jstr s =>
                simp only [process_pairs]
                exact ihP rest _ _ _ hrest
            | jnum m =>
                simp only [process_pairs]
                exact ihP rest _ _ _ hrest
            | jbool b =>
                simp only [process_pairs]
                exact ihP rest _ _ _ hrest
            | jnull =>
                simp only [process_pairs]
                exact ihP rest _ _ _ hrest
      have hAO : ∀ elems tname powner oid st, sizeOf elems ≤ n + 1 →
          StepOk st (process_array_objects elems tname powner oid st) := by
        intro elems tname powner oid st hs
        cases elems with
        | nil =>
            simp only [process_array_objects]
            exact StepOk_refl st
        | cons hd rest =>
            have hrest : sizeOf rest ≤ n := by
              simp at hs
              have := one_le_sizeOf_list rest
              omega
            cases hd with
            | jobj pairs =>
                have hpairs : sizeOf pairs ≤ n := by
                  simp at hs
                  omega
                simp only [process_array_objects]
                exact StepOk_trans (ihO pairs _ _ _ _ hpairs)
                  (ihAO rest _ _ _ _ hrest)
            | jstr s =>
                simp only [process_array_objects]
                exact ihAO rest _ _ _ _ hrest
            | jnum m =>
                simp only [process_array_objects]
                exact ihAO rest _ _ _ _ hrest
            | jbool b =>
                simp only [process_array_objects]
                exact ihAO rest _ _ _ _ hrest
            | jnull =>
                simp only [process_array_objects]
                exact ihAO rest _ _ _ _ hrest
            | jarr es =>
                simp only [process_array_objects]
                exact ihAO rest _ _ _ _ hrest
      have hO : ∀ pairs tname pid pfk st, sizeOf pairs ≤ n + 1 →
          StepOk st (process_object_node pairs tname pid pfk st) := by
        intro pairs tname pid pfk st hs
        simp only [process_object_node]
        exact StepOk_trans (route_ok st tname (pairs.map Prod.fst) pfk pairs)
          (hP pairs _ _ _ hs)
      have hA : ∀ elems owner key oid st, sizeOf elems ≤ n + 1 →
          StepOk st (process_array_node elems owner key oid st) := by
        intro elems owner key oid st hs
        cases elems with
        | nil =>
            simp only [process_array_node]
            exact StepOk_refl st
        | cons hd rest =>
            cases hd with
            | jobj o =>
                simp only [process_array_node]
                exact hAO (JValue.jobj o :: rest) _ _ _ _ hs
            | jstr s =>
                simp only [process_array_node]
                exact add_junction_ok st _ _
            | jnum m =>
                simp only [process_array_node]
                exact add_junction_ok st _ _
            | jbool b =>
                simp only [process_array_node]
                exact add_junction_ok st _ _
            | jnull =>
                simp only [process_array_node]
                exact add_junction_ok st _ _
            | jarr es =>
                simp only [process_array_node]
                exact add_junction_ok st _ _
      exact ⟨hP, hAO, hO, hA⟩

/-- `StepOk` for a whole `process_object_node` call. -/
theorem process_object_node_ok (pairs : List (String × JValue)) (tname : String)
    (pid : Nat) (pfk : Option String) (st : InferState) :
    StepOk st (process_object_node pairs tname pid pfk st) :=
  (processing_ok (sizeOf pairs)).2.2.1 pairs tname pid pfk st (le_refl _)

/-- `StepOk` for a whole `process_array_node` call. -/
theorem process_array_node_ok (elems : List JValue) (owner key : String)
    (oid : Nat) (st : InferState) :
    StepOk st (process_array_node elems owner key oid st) :=
  (processing_ok (sizeOf elems)).2.2.2 elems owner key oid st (le_refl _)

/-- `StepOk` for a whole `process_pairs` call. -/
theorem process_pairs_ok (ps : List (String × JValue)) (tname : String)
    (myId : Nat) (st : InferState) :
    StepOk st (process_pairs ps tname myId st) :=
  (processing_ok (sizeOf ps)).1 ps tname myId st (le_refl _)

/-- `StepOk` for a whole `process_array_objects` call. -/
theorem process_array_objects_ok (elems : List JValue) (tname powner : String)
    (oid : Nat) (st : InferState) :
    StepOk st (process_array_objects elems tname powner oid st) :=
  (processing_ok (sizeOf elems)).2.1 elems tname powner oid st (le_refl _)

/-- Starting from the empty registry, a `process_object_node` call puts the
object's table at index 0, with the layout of `new_table_columns`, and that
name/column layout survives the rest of the call. -/
theorem process_object_first_table (pairs : List (String × JValue))
    (tname : String) (pid : Nat) (pfk : Option String) :
    ((process_object_node pairs tname pid pfk ⟨[], 1⟩).tables.get? 0).map
      (fun t => (t.name, t.columns)) =
      some (tname, new_table_columns (pairs.map Prod.fst) pfk) ∧
    1 ≤ (process_object_node pairs tname pid pfk ⟨[], 1⟩).tables.length := by
  have hdef : process_object_node pairs tname pid pfk ⟨[], 1⟩ =
      process_pairs pairs tname 1
        ⟨[⟨tname, new_table_columns (pairs.map Prod.fst) pfk, [⟨1, pairs⟩]⟩],
          2⟩ := by
    simp only [process_object_node]
    rfl
  rw [hdef]
  obtain ⟨_, hlen, hget, _, _⟩ := process_pairs_ok pairs tname 1
    ⟨[⟨tname, new_table_columns (pairs.map Prod.fst) pfk, [⟨1, pairs⟩]⟩], 2⟩
  constructor
  · rw [hget 0 (by simp)]
    rfl
  · exact le_trans (by simp) hlen

/-! ## Routing of root-array elements into the `items` table

Nested processing below an element of a root array only ever uses table
names that extend `items_` (child names are `parent ++ "_" ++ key` and the
parent is never the root sentinel there), so no nested call can route an
object into the table named `items` at index 0; only the top-level object
elements do. -/

/-- A table-name candidate generated beneath the `items` table: it carries
the character prefix `items_`. -/
def items_child (n : String) : Prop :=
  "items_".data <+: n.data

/-- A table-name candidate occurring while processing a root-array element:
either `items` itself (the element's own table) or a strict descendant. -/
def SubItemsName (n : String) : Prop := n = "items" ∨ items_child n

/-- The registry's table 0 exists and is named `items`. -/
def FirstItems (st : InferState) : Prop :=
  ∃ t0, st.tables.get? 0 = some t0 ∧ t0.name = "items"

theorem items_child_ne_items {n : String} (h : items_child n) : n ≠ "items" := by
  intro heq
  subst heq
  exact absurd h.length_le (by decide)

theorem items_child_ne_root {n : String} (h : items_child n) : n ≠ "root" := by
  intro heq
  subst heq
  exact absurd h.length_le (by decide)

theorem items_child_append {n : String} (k : String) (h : items_child n) :
    items_child (n ++ "_" ++ k) := by
  show "items_".data <+: ((n ++ "_") ++ k).data
  rw [String.data_append, String.data_append, List.append_assoc]
  exact h.trans (List.prefix_append _ _)

theorem sub_child_name {n : String} (k : String) (h : SubItemsName n) :
    items_child (get_table_name_for_array (some n) k) := by
  rcases h with rfl | hpref
  · have hnr : get_table_name_for_array (some "items") k = "items" ++ "_" ++ k := by
      simp [get_table_name_for_array]
    rw [hnr]
    show "items_".data <+: (("items" ++ "_") ++ k).data
    rw [String.data_append]
    exact List.prefix_append _ _
  · have hnr : get_table_name_for_array (some n) k = n ++ "_" ++ k := by
      simp [get_table_name_for_array, items_child_ne_root hpref]
    rw [hnr]
    exact items_child_append k hpref

theorem firstItems_pos {st : InferState} (hfi : FirstItems st) :
    0 < st.tables.length := by
  obtain ⟨t0, hg, _⟩ := hfi
  cases hts : st.tables with
  | nil => rw [hts] at hg; simp at hg
  | cons a l => simp

/-- The table found by the name scan has the sought name. -/
theorem find_table_idx_name {ts : List TableSchema} {name : String} {i : Nat}
    (h : find_table_idx ts name = some i) :
    (ts.get? i).map TableSchema.name = some name := by
  induction ts generalizing i with
  | nil => simp [find_table_idx] at h
  | cons t rest ih =>
      by_cases ht : t.name = name
      · simp [find_table_idx, ht] at h
        subst h
        simp [ht]
      · simp [find_table_idx, ht, Option.map_eq_some'] at h
        obtain ⟨j, hj, rfl⟩ := h
        simpa using ih hj

/-- Routing an object to a name other than `items` leaves table 0 alone. -/
theorem route_keep0 (st : InferState) (tname : String) (keys : List String)
    (pfk : Option String) (pairs : List (String × JValue))
    (hfi : FirstItems st) (hne : tname ≠ "items") :
    (add_object_to_table (find_or_create_table st tname keys pfk).2
      (find_or_create_table st tname keys pfk).1 pairs).tables.get? 0 =
      st.tables.get? 0 := by
  obtain ⟨t0, hg0, hn0⟩ := hfi
  have hpos : 0 < st.tables.length := firstItems_pos ⟨t0, hg0, hn0⟩
  rcases hfind : find_table_idx st.tables tname with _ | i
  · have hstep : find_or_create_table st tname keys pfk =
        (st.tables.length,
          { st with tables :=
              st.tables ++ [⟨tname, new_table_columns keys pfk, []⟩] }) := by
      simp [find_or_create_table, hfind]
    rw [hstep]
    simp only [add_object_to_table]
    rw [get?_modifyAt, if_neg (by omega)]
    exact List.get?_append hpos
  · have hname := find_table_idx_name hfind
    have hi0 : i ≠ 0 := by
      intro h0
      subst h0
      rw [hg0] at hname
      simp [hn0] at hname
      exact hne hname.symm
    have hstep : find_or_create_table st tname keys pfk = (i, st) := by
      simp [find_or_create_table, hfind]
    rw [hstep]
    simp only [add_object_to_table]
    rw [get?_modifyAt, if_neg (by omega)]

/-- No nested traversal step below a root-array element touches table 0:
all names it routes to are strict `items_` descendants. -/
theorem items_keep_first (N : Nat) :
    (∀ ps tname myId st, sizeOf ps ≤ N → SubItemsName tname → FirstItems st →
        (process_pairs ps tname myId st).tables.get? 0 = st.tables.get? 0) ∧
    (∀ elems tname powner oid st, sizeOf elems ≤ N → items_child tname →
        FirstItems st →
        (process_array_objects elems tname powner oid st).tables.get? 0 =
          st.tables.get? 0) ∧
    (∀ pairs tname pid pfk st, sizeOf pairs ≤ N → items_child tname →
        FirstItems st →
        (process_object_node pairs tname pid pfk st).tables.get? 0 =
          st.tables.get? 0) ∧
    (∀ elems owner key oid st, sizeOf elems ≤ N → SubItemsName owner →
        FirstItems st →
        (process_array_node elems owner key oid st).tables.get? 0 =
          st.tables.get? 0) := by
  induction N with
  | zero =>
      refine ⟨?_, ?_, ?_, ?_⟩
      · intro ps _ _ _ h _ _
        exact absurd h (by have := one_le_sizeOf_list ps; omega)
      · intro elems _ _ _ _ h _ _
        exact absurd h (by have := one_le_sizeOf_list elems; omega)
      · intro pairs _ _ _ _ h _ _
        exact absurd h (by have := one_le_sizeOf_list pairs; omega)
      · intro elems _ _ _ _ h _ _
        exact absurd h (by have := one_le_sizeOf_list elems; omega)
  | succ n ih =>
      obtain ⟨ihP, ihAO, ihO, ihA⟩ := ih
      have hP : ∀ ps tname myId st, sizeOf ps ≤ n + 1 → SubItemsName tname →
          FirstItems st →
          (process_pairs ps tname myId st).tables.get? 0 =
            st.tables.get? 0 := by
        intro ps tname myId st hs hsub hfi
        cases ps with
        | nil => simp only [process_pairs]
        | cons hd rest =>
            obtain ⟨k, v⟩ := hd
            have hrest : sizeOf rest ≤ n := by
              simp at hs
              have := one_le_sizeOf_list rest
              omega
            obtain ⟨t0, hg0, hn0⟩ := hfi
            cases v with
            | jobj inner =>
                have hinner : sizeOf inner ≤ n := by
                  simp at hs
                  omega
                simp only [process_pairs]
                have h1 := ihO inner _ myId (some tname) st hinner
                  (sub_child_name k hsub) ⟨t0, hg0, hn0⟩
                have h2 := ihP rest tname myId _ hrest hsub
                  ⟨t0, by rw [h1]; exact hg0, hn0⟩
                exact h2.trans h1
            | jarr elems =>
                have helems : sizeOf elems ≤ n := by
                  simp at hs
                  omega
                simp only [process_pairs]
                have h1 := ihA elems tname k myId st helems hsub ⟨t0, hg0, hn0⟩
                have h2 := ihP rest tname myId _ hrest hsub
                  ⟨t0, by rw [h1]; exact hg0, hn0⟩
                exact h2.trans h1
            | jstr s =>
                simp only [process_pairs]
                exact ihP rest tname myId st hrest hsub ⟨t0, hg0, hn0⟩
            | jnum m =>
                simp only [process_pairs]
                exact ihP rest tname myId st hrest hsub ⟨t0, hg0, hn0⟩
            | jbool b =>
                simp only [process_pairs]
                exact ihP rest tname myId st hrest hsub ⟨t0, hg0, hn0⟩
            | jnull =>
                simp only [process_pairs]
                exact ihP rest tname myId st hrest hsub ⟨t0, hg0, hn0⟩
      have hAO : ∀ elems tname powner oid st, sizeOf elems ≤ n + 1 →
          items_child tname → FirstItems st →
          (process_array_objects elems tname powner oid st).tables.get? 0 =
            st.tables.get? 0 := by
        intro elems tname powner oid st hs hpref hfi
        cases elems with
        | nil => simp only [process_array_objects]
        | cons hd rest =>
            have hrest : sizeOf rest ≤ n := by
              simp at hs
              have := one_le_sizeOf_list rest
              omega
            obtain ⟨t0, hg0, hn0⟩ := hfi
            cases hd with
            | jobj pairs =>
                have hpairs : sizeOf pairs ≤ n := by
                  simp at hs
                  omega
                simp only [process_array_objects]
                have h1 := ihO pairs tname oid (some powner) st hpairs hpref
                  ⟨t0, hg0, hn0⟩
                have h2 := ihAO rest tname powner oid _ hrest hpref
                  ⟨t0, by rw [h1]; exact hg0, hn0⟩
                exact h2.trans h1
            | jstr s =>
                simp only [process_array_objects]
                exact ihAO rest tname powner oid st hrest hpref ⟨t0, hg0, hn0⟩
            | jnum m =>
                simp only [process_array_objects]
                exact ihAO rest tname powner oid st hrest hpref ⟨t0, hg0, hn0⟩
            | jbool b =>
                simp only [process_array_objects]
                exact ihAO rest tname powner oid st hrest hpref ⟨t0, hg0, hn0⟩
            | jnull =>
                simp only [process_array_objects]
                exact ihAO rest tname powner oid st hrest hpref ⟨t0, hg0, hn0⟩
            | jarr es =>
                simp only [process_array_objects]
                exact ihAO rest tname powner oid st hrest hpref ⟨t0, hg0, hn0⟩
      have hO : ∀ pairs tname pid pfk st, sizeOf pairs ≤ n + 1 →
          items_child tname → FirstItems st →
          (process_object_node pairs tname pid pfk st).tables.get? 0 =
            st.tables.get? 0 := by
        intro pairs tname pid pfk st hs hpref hfi
        obtain ⟨t0, hg0, hn0⟩ := hfi
        simp only [process_object_node]
        have h1 := route_keep0 st tname (pairs.map Prod.fst) pfk pairs
          ⟨t0, hg0, hn0⟩ (items_child_ne_items hpref)
        have h2 := hP pairs tname
          (find_or_create_table st tname (pairs.map Prod.fst) pfk).2.next_id
          (add_object_to_table
            (find_or_create_table st tname (pairs.map Prod.fst) pfk).2
            (find_or_create_table st tname (pairs.map Prod.fst) pfk).1 pairs)
          hs (Or.inr hpref) ⟨t0, by rw [h1]; exact hg0, hn0⟩
        exact h2.trans h1
      have hA : ∀ elems owner key oid st, sizeOf elems ≤ n + 1 →
          SubItemsName owner → FirstItems st →
          (process_array_node elems owner key oid st).tables.get? 0 =
            st.tables.get? 0 := by
        intro elems owner key oid st hs hsub hfi
        have hpos := firstItems_pos hfi
        cases elems with
        | nil => simp only [process_array_node]
        | cons hd rest =>
            cases hd with
            | jobj o =>
                simp only [process_array_node]
                exact hAO (JValue.jobj o :: rest) _ owner oid st hs
                  (sub_child_name key hsub) hfi
            | jstr s =>
                simp only [process_array_node, add_junction_table]
                exact List.get?_append hpos
            | jnum m =>
                simp only [process_array_node, add_junction_table]
                exact List.get?_append hpos
            | jbool b =>
                simp only [process_array_node, add_junction_table]
                exact List.get?_append hpos
            | jnull =>
                simp only [process_array_node, add_junction_table]
                exact List.get?_append hpos
            | jarr es =>
                simp only [process_array_node, add_junction_table]
                exact List.get?_append hpos
      exact ⟨hP, hAO, hO, hA⟩

/-- Table 0 is untouched by one whole `process_pairs` call under an
`items`-scope table name. -/
theorem items_keep_pairs (ps : List (String × JValue)) (tname : String)
    (myId : Nat) (st : InferState) (hsub : SubItemsName tname)
    (hfi : FirstItems st) :
    (process_pairs ps tname myId st).tables.get? 0 = st.tables.get? 0 :=
  (items_keep_first (sizeOf ps)).1 ps tname myId st (le_refl _) hsub hfi

/-- The pair list of an object element of an array (skipping non-objects,
as the object-array branch of `process_array_node` does). -/
def object_element_pairs : JValue → Option (List (String × JValue))
  | JValue.jobj ps => some ps
  | _ => none

/-- When table 0 is named `items`, the element loop of the object-array
branch prepends to table 0 exactly one row per object element, carrying that
element's pair list, and leaves table 0's name and columns alone. -/
theorem process_array_objects_items (elems : List JValue) (powner : String)
    (oid : Nat) (st : InferState) (t0 : TableSchema)
    (h0 : st.tables.get? 0 = some t0) (hname : t0.name = "items") :
    ∃ rows, (process_array_objects elems "items" powner oid
        st).tables.get? 0 =
      some ⟨"items", t0.columns, rows ++ t0.objects⟩ ∧
      rows.map ObjRow.pairs =
        (elems.filterMap object_element_pairs).reverse := by
  induction elems generalizing st t0 with
  | nil =>
      refine ⟨[], ?_, by simp⟩
      simp only [process_array_objects, List.nil_append]
      rw [h0, ← hname]
  | cons v rest ih =>
      cases v with
      | jobj pairs =>
          obtain ⟨rest', hts⟩ : ∃ rest', st.tables = t0 :: rest' := by
            cases hcase : st.tables with
            | nil => rw [hcase] at h0; simp at h0
            | cons a l =>
                rw [hcase] at h0
                simp at h0
                exact ⟨l, by rw [h0]⟩
          have hfind : find_table_idx st.tables "items" = some 0 := by
            rw [hts]
            simp [find_table_idx, hname]
          have hfc : find_or_create_table st "items" (pairs.map Prod.fst)
              (some powner) = (0, st) := by
            simp [find_or_create_table, hfind]
          have hdef : process_object_node pairs "items" oid (some powner) st =
              process_pairs pairs "items" st.next_id
                ⟨modifyAt st.tables 0 (fun t =>
                  { t with objects := ⟨st.next_id, pairs⟩ :: t.objects }),
                  st.next_id + 1⟩ := by
            simp only [process_object_node]
            rw [hfc]
            rfl
          have hmod : modifyAt st.tables 0 (fun t =>
              { t with objects := ⟨st.next_id, pairs⟩ :: t.objects }) =
              { t0 with objects := ⟨st.next_id, pairs⟩ :: t0.objects } ::
                rest' := by
            rw [hts]
            rfl
          have hg2 : (process_object_node pairs "items" oid (some powner)
              st).tables.get? 0 =
              some { t0 with objects := ⟨st.next_id, pairs⟩ :: t0.objects } := by
            rw [hdef]
            rw [items_keep_pairs pairs "items" st.next_id _ (Or.inl rfl)
              ⟨{ t0 with objects := ⟨st.next_id, pairs⟩ :: t0.objects },
                by rw [hmod]; rfl, hname⟩]
            rw [hmod]
            rfl
          simp only [process_array_objects]
          obtain ⟨rows', hget', hmap'⟩ := ih _ _ hg2 hname
          refine ⟨rows' ++ [⟨st.next_id, pairs⟩], ?_, ?_⟩
          · rw [hget']
            simp [List.append_assoc]
          · simp only [List.map_append, hmap', List.map_cons, List.map_nil]
            simp [object_element_pairs, List.filterMap_cons]
      | jstr s =>
          simp only [process_array_objects]
          have := ih st t0 h0 hname
          simpa [object_element_pairs, List.filterMap_cons] using this
      | jnum m =>
          simp only [process_array_objects]
          have := ih st t0 h0 hname
          simpa [object_element_pairs, List.filterMap_cons] using this
      | jbool b =>
          simp only [process_array_objects]
          have := ih st t0 h0 hname
          simpa [object_element_pairs, List.filterMap_cons] using this
      | jnull =>
          simp only [process_array_objects]
          have := ih st t0 h0 hname
          simpa [object_element_pairs, List.filterMap_cons] using this
      | jarr es =>
          simp only [process_array_objects]
          have := ih st t0 h0 hname
          simpa [object_element_pairs, List.filterMap_cons] using this

/-! ## The claims -/

/-- Spec-side naming rule (spec §4.3): `child_name(parent, key) = key` when
`parent` is the implicit root sentinel (absent or the literal name `"root"`),
else `parent + "_" + key`. -/
def spec_child_name (parent : Option String) (key : String) : String :=
  if parent = none ∨ parent = some "root" then key
  else parent.getD "" ++ "_" ++ key

/-- C6: the table name chosen for a nested object or array reached at field
`key` of parent `parent` is `key` alone when the parent is the implicit root
sentinel (absent or the literal name `"root"`), and otherwise
`parent + "_" + key`.  `get_table_name_for_array` is the single function the
engine uses at all three sites (nested objects in `process_pairs`, object
arrays and scalar-array junction tables in `process_array_node`), so the rule
is applied uniformly. -/
theorem C6_table_naming_rule :
    ∀ (parent : Option String) (key : String),
      get_table_name_for_array parent key = spec_child_name parent key := by
  intro p k
  cases p with
  | none => simp [get_table_name_for_array, spec_child_name]
  | some q =>
      by_cases h : q = "root" <;>
        simp [get_table_name_for_array, spec_child_name, h]

/-- C7: when the root value is a scalar (string, number, boolean or null),
inference fails with `RootShapeError`: `generate_schema_run` aborts with no
schema — hence no table — and the pipeline writes no CSV file at all. -/
theorem C7_root_shape_error :
    ∀ (c0 : Nat) (s : String) (m : Int) (b : Bool),
      generate_schema_run c0 (JValue.jstr s) = none ∧
      generate_schema_run c0 (JValue.jnum m) = none ∧
      generate_schema_run c0 (JValue.jbool b) = none ∧
      generate_schema_run c0 JValue.jnull = none ∧
      pipeline (JValue.jstr s) = none ∧
      pipeline (JValue.jnum m) = none ∧
      pipeline (JValue.jbool b) = none ∧
      pipeline JValue.jnull = none := by
  intro c0 s m b
  exact ⟨rfl, rfl, rfl, rfl, rfl, rfl, rfl, rfl⟩

/-- C9: the pipeline's output files do not depend on the value of the
identifier counter left over from any earlier run, because
`generate_schema_run` resets the counter to 1 on entry and the rest of the
pipeline is deterministic; hence two runs on byte-identical input (the second
starting from whatever counter the first left behind) produce identical CSV
output. -/
theorem C9_idempotent_runs :
    ∀ (c1 c2 : Nat) (root : JValue),
      (pipeline_run c1 root).map Prod.fst =
        (pipeline_run c2 root).map Prod.fst := by
  intro c1 c2 root
  rfl

/-- C8: on a miss, `find_or_create_table` appends a table whose columns are
exactly `"id"`, then `"<parent>_id"` iff a parent name is given and is not
the implicit root, then the object's field names in first-observed order;
its column count is `data_key_count + 1 + (1 if parent-FK else 0)`. -/
theorem C8_new_table_layout (st : InferState) (name : String)
    (keys : List String) (pfk : Option String)
    (hmiss : ∀ t ∈ st.tables, t.name ≠ name) :
    (find_or_create_table st name keys pfk).2.tables =
      st.tables ++ [⟨name,
        "id" :: ((if pfk = none ∨ pfk = some "root" then []
          else [pfk.getD "" ++ "_id"]) ++ keys), []⟩] ∧
    (new_table_columns keys pfk).length =
      keys.length + 1 + (if pfk = none ∨ pfk = some "root" then 0 else 1) := by
  have hfind : find_table_idx st.tables name = none :=
    (find_table_idx_eq_none_iff _ _).mpr hmiss
  have hspec : new_table_columns keys pfk =
      "id" :: ((if pfk = none ∨ pfk = some "root" then []
        else [pfk.getD "" ++ "_id"]) ++ keys) := by
    cases pfk with
    | none => simp [new_table_columns, has_parent_fk]
    | some p =>
        by_cases h : p = "root" <;>
          simp [new_table_columns, has_parent_fk, h]
  constructor
  · simp [find_or_create_table, hfind, hspec]
  · rw [hspec]
    by_cases h : pfk = none ∨ pfk = some "root" <;> simp [h]

/-- Witness for C8 at a concrete miss. -/
theorem C8_witness :
    (∀ t ∈ (InferState.mk [] 1).tables, t.name ≠ "users") ∧
    ((find_or_create_table ⟨[], 1⟩ "users" ["a"] (some "root")).2.tables =
      [] ++ [⟨"users",
        "id" :: ((if (some "root" : Option String) = none ∨
            (some "root" : Option String) = some "root" then []
          else [(some "root" : Option String).getD "" ++ "_id"]) ++ ["a"]),
        []⟩] ∧
    (new_table_columns ["a"] (some "root")).length =
      ["a"].length + 1 + (if (some "root" : Option String) = none ∨
        (some "root" : Option String) = some "root" then 0 else 1)) :=
  ⟨by simp, C8_new_table_layout ⟨[], 1⟩ "users" ["a"] (some "root") (by simp)⟩

/-- C3 amended: the lookup-or-create path (`find_or_create_table`) does keep
registry names pairwise distinct and reuses the existing definition when an
object is routed to an already-used name; the original claim fails only for
scalar-array junction tables, which `process_array_node` appends without any
lookup. -/
theorem C3_amended_registry_names (st : InferState) (name : String)
    (keys : List String) (pfk : Option String)
    (hnodup : (st.tables.map TableSchema.name).Nodup) :
    ((find_or_create_table st name keys pfk).2.tables.map
      TableSchema.name).Nodup ∧
    (name ∈ st.tables.map TableSchema.name →
      (find_or_create_table st name keys pfk).2 = st) := by
  rcases hfind : find_table_idx st.tables name with _ | i
  · have hnot : name ∉ st.tables.map TableSchema.name := by
      have hnone := (find_table_idx_eq_none_iff st.tables name).mp hfind
      simp only [List.mem_map]
      rintro ⟨t, ht, rfl⟩
      exact hnone t ht rfl
    constructor
    · simp [find_or_create_table, hfind, List.nodup_append, hnodup, hnot]
    · intro hmem
      exact absurd hmem hnot
  · have hstep : find_or_create_table st name keys pfk = (i, st) := by
      simp [find_or_create_table, hfind]
    rw [hstep]
    exact ⟨hnodup, fun _ => rfl⟩

/-- Witness for the amended C3 at a concrete hit. -/
theorem C3_amended_witness :
    (([⟨"root", ["id"], []⟩] : List TableSchema).map TableSchema.name).Nodup ∧
    (((find_or_create_table ⟨[⟨"root", ["id"], []⟩], 2⟩ "root" ["k"]
        none).2.tables.map TableSchema.name).Nodup ∧
      ("root" ∈ ([⟨"root", ["id"], []⟩] : List TableSchema).map
          TableSchema.name →
        (find_or_create_table ⟨[⟨"root", ["id"], []⟩], 2⟩ "root" ["k"]
          none).2 = ⟨[⟨"root", ["id"], []⟩], 2⟩)) :=
  ⟨by simp,
    C3_amended_registry_names ⟨[⟨"root", ["id"], []⟩], 2⟩ "root" ["k"] none
      (by simp)⟩

/-- C4: in one inference run every registered object receives a `row_id`
drawn from the single shared counter, which is reset to 1 at the start of
the run and incremented by 1 per assignment; the multiset of all ids across
all tables is a permutation of `1, ..., final_counter - 1` — pairwise
distinct, no reuse, no gaps. -/
theorem C4_row_ids_unique_no_gaps :
    ∀ (c0 : Nat) (root : JValue) (ts : List TableSchema) (endc : Nat),
      generate_schema_run c0 root = some (ts, endc) →
      1 ≤ endc ∧ (allIds ts).Perm (List.range' 1 (endc - 1)) := by
  intro c0 root ts endc h
  cases root with
  | jobj pairs =>
      obtain ⟨hn, _, _, hperm, _⟩ :=
        process_object_node_ok pairs "root" 0 none ⟨[], 1⟩
      simp only [generate_schema_run, Option.some.injEq, Prod.mk.injEq] at h
      obtain ⟨hts, hend⟩ := h
      rw [← hts, ← hend]
      refine ⟨hn, ?_⟩
      simpa [allIds] using hperm
  | jarr elems =>
      obtain ⟨hn, _, _, hperm, _⟩ :=
        process_array_node_ok elems "root" "items" 0 ⟨[], 1⟩
      simp only [generate_schema_run, Option.some.injEq, Prod.mk.injEq] at h
      obtain ⟨hts, hend⟩ := h
      rw [← hts, ← hend]
      refine ⟨hn, ?_⟩
      simpa [allIds] using hperm
  | jstr s => simp [generate_schema_run] at h
  | jnum m => simp [generate_schema_run] at h
  | jbool b => simp [generate_schema_run] at h
  | jnull => simp [generate_schema_run] at h

/-- Witness for C4 at the input `{"x": "y"}`. -/
theorem C4_witness :
    generate_schema_run 1 (JValue.jobj [("x", JValue.jstr "y")]) =
      some ([⟨"root", ["id", "x"], [⟨1, [("x", JValue.jstr "y")]⟩]⟩], 2) ∧
    (1 ≤ 2 ∧
      (allIds [⟨"root", ["id", "x"], [⟨1, [("x", JValue.jstr "y")]⟩]⟩]).Perm
        (List.range' 1 (2 - 1))) := by
  have heval : generate_schema_run 1 (JValue.jobj [("x", JValue.jstr "y")]) =
      some ([⟨"root", ["id", "x"], [⟨1, [("x", JValue.jstr "y")]⟩]⟩], 2) := by
    simp [generate_schema_run, process_object_node, process_pairs,
      find_or_create_table, find_table_idx, add_object_to_table, modifyAt,
      new_table_columns, has_parent_fk]
  exact ⟨heval, C4_row_ids_unique_no_gaps 1 _ _ 2 heval⟩

/-- C5: every table's stored row list is strictly decreasing in `row_id`
(each new row is prepended), i.e. the stored order — which is exactly the
order `write_rows` emits the data rows of the table's CSV file — is the
reverse of the order in which the objects were reached in the input
document (the order of id assignment). -/
theorem C5_rows_reverse_document_order :
    ∀ (c0 : Nat) (root : JValue) (ts : List TableSchema) (endc : Nat),
      generate_schema_run c0 root = some (ts, endc) →
      ∀ t ∈ ts, List.Chain' (fun a b => b < a) (tableIds t) := by
  intro c0 root ts endc h t ht
  have hInv0 : SchemaInv ⟨[], 1⟩ := by
    intro u hu
    simp at hu
  cases root with
  | jobj pairs =>
      obtain ⟨_, _, _, _, hinv⟩ :=
        process_object_node_ok pairs "root" 0 none ⟨[], 1⟩
      simp only [generate_schema_run, Option.some.injEq, Prod.mk.injEq] at h
      obtain ⟨hts, _⟩ := h
      rw [← hts] at ht
      exact (hinv hInv0 t ht).1
  | jarr elems =>
      obtain ⟨_, _, _, _, hinv⟩ :=
        process_array_node_ok elems "root" "items" 0 ⟨[], 1⟩
      simp only [generate_schema_run, Option.some.injEq, Prod.mk.injEq] at h
      obtain ⟨hts, _⟩ := h
      rw [← hts] at ht
      exact (hinv hInv0 t ht).1
  | jstr s => simp [generate_schema_run] at h
  | jnum m => simp [generate_schema_run] at h
  | jbool b => simp [generate_schema_run] at h
  | jnull => simp [generate_schema_run] at h

/-- Witness for C5 at the input `{"a": [{}, {}]}`: the `a` table stores its
two rows with ids `[3, 2]`, the reverse of document order. -/
theorem C5_witness :
    generate_schema_run 1
        (JValue.jobj [("a", JValue.jarr [JValue.jobj [], JValue.jobj []])]) =
      some ([⟨"root", ["id", "a"],
        [⟨1, [("a", JValue.jarr [JValue.jobj [], JValue.jobj []])]⟩]⟩,
        ⟨"a", ["id"], [⟨3, []⟩, ⟨2, []⟩]⟩], 4) ∧
    (⟨"a", ["id"], [⟨3, []⟩, ⟨2, []⟩]⟩ : TableSchema) ∈
      ([⟨"root", ["id", "a"],
        [⟨1, [("a", JValue.jarr [JValue.jobj [], JValue.jobj []])]⟩]⟩,
        ⟨"a", ["id"], [⟨3, []⟩, ⟨2, []⟩]⟩] : List TableSchema) ∧
    List.Chain' (fun a b => b < a)
      (tableIds ⟨"a", ["id"], [⟨3, []⟩, ⟨2, []⟩]⟩) := by
  have heval : generate_schema_run 1
      (JValue.jobj [("a", JValue.jarr [JValue.jobj [], JValue.jobj []])]) =
      some ([⟨"root", ["id", "a"],
        [⟨1, [("a", JValue.jarr [JValue.jobj [], JValue.jobj []])]⟩]⟩,
        ⟨"a", ["id"], [⟨3, []⟩, ⟨2, []⟩]⟩], 4) := by
    simp [generate_schema_run, process_object_node, process_pairs,
      process_array_node, process_array_objects, find_or_create_table,
      find_table_idx, add_object_to_table, modifyAt, get_table_name_for_array,
      new_table_columns, has_parent_fk]
  refine ⟨heval, by simp, ?_⟩
  exact C5_rows_reverse_document_order 1 _ _ 4 heval
    ⟨"a", ["id"], [⟨3, []⟩, ⟨2, []⟩]⟩ (by simp)

/-- C10: a root array is treated as the implicit field `"items"` of the
root.  A root array whose first element is a scalar (string, number,
boolean or null) produces exactly one junction table named `items` whose
first column is `root_id`.  A root array whose first element is an object
routes its object elements into the table named `items`, which sits at
index 0 with columns `id` followed by the first object's field names — no
parent-FK column, because the parent is the root sentinel — and whose rows
carry exactly the pair lists of the array's object elements (in reverse
document order, rows being prepended). -/
theorem C10_root_array_items :
    ∀ (c0 : Nat) (s : String) (m : Int) (b : Bool)
      (r1 r2 r3 r4 : List JValue)
      (pairs : List (String × JValue)) (rest2 : List JValue),
      generate_schema_run c0 (JValue.jarr (JValue.jstr s :: r1)) =
        some ([⟨"items", ["root_id", "item_index", "value"], []⟩], 1) ∧
      generate_schema_run c0 (JValue.jarr (JValue.jnum m :: r2)) =
        some ([⟨"items", ["root_id", "item_index", "value"], []⟩], 1) ∧
      generate_schema_run c0 (JValue.jarr (JValue.jbool b :: r3)) =
        some ([⟨"items", ["root_id", "item_index", "value"], []⟩], 1) ∧
      generate_schema_run c0 (JValue.jarr (JValue.jnull :: r4)) =
        some ([⟨"items", ["root_id", "item_index", "value"], []⟩], 1) ∧
      (generate_schema_run c0 (JValue.jarr (JValue.jobj pairs :: rest2))).map
          (fun p => (p.1.get? 0).map
            (fun t => (t.name, t.columns, t.objects.map ObjRow.pairs))) =
        some (some ("items", "id" :: pairs.map Prod.fst,
          ((JValue.jobj pairs :: rest2).filterMap
            object_element_pairs).reverse)) := by
  intro c0 s m b r1 r2 r3 r4 pairs rest2
  refine ⟨?_, ?_, ?_, ?_, ?_⟩
  · simp only [generate_schema_run, process_array_node]
    rfl
  · simp only [generate_schema_run, process_array_node]
    rfl
  · simp only [generate_schema_run, process_array_node]
    rfl
  · simp only [generate_schema_run, process_array_node]
    rfl
  · simp only [generate_schema_run, process_array_node]
    have hroot : get_table_name_for_array (some "root") "items" = "items" :=
      rfl
    rw [hroot]
    simp only [process_array_objects]
    have hdefA : process_object_node pairs "items" 0 (some "root") ⟨[], 1⟩ =
        process_pairs pairs "items" 1
          ⟨[⟨"items", new_table_columns (pairs.map Prod.fst) (some "root"),
            [⟨1, pairs⟩]⟩], 2⟩ := by
      simp only [process_object_node]
      rfl
    rw [hdefA]
    have hgetA : (process_pairs pairs "items" 1
        ⟨[⟨"items", new_table_columns (pairs.map Prod.fst) (some "root"),
          [⟨1, pairs⟩]⟩], 2⟩).tables.get? 0 =
        some ⟨"items", new_table_columns (pairs.map Prod.fst) (some "root"),
          [⟨1, pairs⟩]⟩ := by
      rw [items_keep_pairs pairs "items" 1
        ⟨[⟨"items", new_table_columns (pairs.map Prod.fst) (some "root"),
          [⟨1, pairs⟩]⟩], 2⟩ (Or.inl rfl)
        ⟨⟨"items", new_table_columns (pairs.map Prod.fst) (some "root"),
          [⟨1, pairs⟩]⟩, rfl, rfl⟩]
      rfl
    obtain ⟨rows, hrows, hmap⟩ := process_array_objects_items rest2 "root" 0 _
      _ hgetA rfl
    simp only [Option.map_some']
    rw [hrows]
    simp [new_table_columns, has_parent_fk, object_element_pairs,
      List.filterMap_cons, hmap]

set_option maxHeartbeats 1000000

/-- C1 (evaluation at the failing input `{"f": ["x"]}`): the junction table
for a length-1 scalar array is materialized with its header and zero data
rows — `write_table_csv`'s junction branch tests for a column literally
named `"index"` while `process_array_node` names it `"item_index"`, the
generic branch then iterates the junction table's empty object list, and
`write_scalar_arrays` (which would still only write headers) is never
called — where the claim requires one row `1,0,"x"`. -/
theorem C1_junction_csv_has_no_data_rows :
    pipeline (JValue.jobj [("f", JValue.jarr [JValue.jstr "x"])]) =
      some [("root.csv", "id,f\n1,\n"),
        ("f.csv", "root_id,item_index,value\n")] := by
  simp [pipeline, pipeline_run, generate_schema_run, process_object_node,
    process_pairs, process_array_node, find_or_create_table, find_table_idx,
    add_object_to_table, add_junction_table, modifyAt, write_csv_files,
    write_table_csv, header_row, is_junction_shape, is_child_table_shape,
    write_rows, row_cells, lookup_value, value_to_csv_string,
    escape_csv_string, get_table_name_for_array, new_table_columns,
    has_parent_fk]
  decide

/-- C2 (evaluation at the failing input `{"a": {"b": {"c": "v"}}}`): the
`a_b` table has the parent-FK column `a_id`, but the emitted cell in that
column is empty, not the parent's row id 2 — `write_table_csv` detects a
child table only when `columns[1]` *starts with* the three characters
`"_id"` (`strstr(columns[1], "_id") == columns[1]`), which is false for
`a_id`, so the cell is filled by looking up a field named `a_id` in the
object, which does not exist. -/
theorem C2_parent_fk_cell_left_empty :
    pipeline (JValue.jobj [("a", JValue.jobj [("b", JValue.jobj
        [("c", JValue.jstr "v")])])]) =
      some [("root.csv", "id,a\n1,\n"),
        ("a.csv", "id,b\n2,\n"),
        ("a_b.csv", "id,a_id,c\n3,,\"v\"\n")] := by
  simp [pipeline, pipeline_run, generate_schema_run, process_object_node,
    process_pairs, process_array_node, find_or_create_table, find_table_idx,
    add_object_to_table, add_junction_table, modifyAt, write_csv_files,
    write_table_csv, header_row, is_junction_shape, is_child_table_shape,
    write_rows, row_cells, lookup_value, value_to_csv_string,
    escape_csv_string, get_table_name_for_array, new_table_columns,
    has_parent_fk]
  decide

/-- C3 counterexample: for the input
`{"a": [{"t": ["x"]}, {"t": ["y"]}]}` the resulting registry holds the
table names `root, a, a_t, a_t` — the junction table name `a_t` occurs
twice, so the registry's table names are not pairwise distinct and the
second scalar array did not reuse the existing junction definition. -/
theorem C3_counterexample_duplicate_names :
    (generate_schema (JValue.jobj [("a", JValue.jarr
        [JValue.jobj [("t", JValue.jarr [JValue.jstr "x"])],
         JValue.jobj [("t", JValue.jarr [JValue.jstr "y"])]])])).map
      (fun ts => ts.map TableSchema.name) =
      some ["root", "a", "a_t", "a_t"] ∧
    ¬ (["root", "a", "a_t", "a_t"] : List String).Nodup := by
  constructor
  · simp [generate_schema, generate_schema_run, process_object_node,
      process_pairs, process_array_node, process_array_objects,
      find_or_create_table, find_table_idx, add_object_to_table,
      add_junction_table, modifyAt, get_table_name_for_array,
      new_table_columns, has_parent_fk]
  · decide

end JsonToRelCsv
